import Mathlib

/-!
Verification of the UVM assembler (assembler.py).

The development shallowly embeds the assembler: the command table
COMMAND_SPEC becomes the functions opcodeA, byte_size, fields_list,
bitOffset and bitWidth; parse_line, assemble_to_pp, generate_machine_code
and main become the Lean functions of the same names below.  Machine
integers are modelled as Nat; the OverflowError raised by Python's
int.to_bytes when the word does not fit is modelled by Option.none;
the printed errors of parse_line (ValueError for an unknown mnemonic,
SyntaxError for a bad operand) are modelled by Except.error carrying the
physical line number, mirroring the messages the program prints.
-/

namespace Assembler

/-- The four supported mnemonics of COMMAND_SPEC. -/
inductive Mnemonic
| LDC
| LDM
| STM
| BIN_OP
deriving DecidableEq, Repr

/-- Opcode field A of each command (COMMAND_SPEC[m]["A"]). -/
def opcodeA : Mnemonic → Nat
| .LDC => 4
| .LDM => 14
| .STM => 10
| .BIN_OP => 5

/-- Total instruction size in bytes (COMMAND_SPEC[m]["byte_size"]). -/
def byte_size : Mnemonic → Nat
| .LDC => 5
| .LDM => 4
| .STM => 3
| .BIN_OP => 4

/-- Operand field names appearing in COMMAND_SPEC "fields" lists
(A is the opcode, not an operand field). -/
inductive FieldName
| B
| C
| D
deriving DecidableEq, Repr

/-- The "fields" list of each command, in COMMAND_SPEC order. -/
def fields_list : Mnemonic → List FieldName
| .LDC => [.B, .C]
| .LDM => [.C, .B]
| .STM => [.B, .C]
| .BIN_OP => [.D, .B, .C]

/-- Declared bit offset of each operand field, from the layout comments of
COMMAND_SPEC (LDC: B at 4, C at 11; LDM: B at 4, C at 19; STM: B at 4,
C at 11; BIN_OP: B at 4, C at 11, D at 21).  Combinations outside
fields_list are unused padding and set to 0. -/
def bitOffset : Mnemonic → FieldName → Nat
| .LDC, .B => 4
| .LDC, .C => 11
| .LDM, .B => 4
| .LDM, .C => 19
| .STM, .B => 4
| .STM, .C => 11
| .BIN_OP, .B => 4
| .BIN_OP, .C => 11
| .BIN_OP, .D => 21
| _, _ => 0

/-- Declared bit width of each operand field, from the same layout comments
(LDC: B bits 4-10 width 7, C bits 11-36 width 26; LDM: B bits 4-18
width 15, C bits 19-25 width 7; STM: B bits 4-10, C bits 11-17 width 7;
BIN_OP: B bits 4-10 width 7, C bits 11-20 width 10, D bits 21-27
width 7).  Combinations outside fields_list are unused and set to 0. -/
def bitWidth : Mnemonic → FieldName → Nat
| .LDC, .B => 7
| .LDC, .C => 26
| .LDM, .B => 15
| .LDM, .C => 7
| .STM, .B => 7
| .STM, .C => 7
| .BIN_OP, .B => 7
| .BIN_OP, .C => 10
| .BIN_OP, .D => 7
| _, _ => 0

/-- Intermediate-representation record built by parse_line.  The Python
dict carries the mnemonic, A, byte_size and the operand fields; A and
byte_size are determined by the mnemonic, so only the mnemonic and the
operand values are stored.  D is only meaningful for BIN_OP and is kept
at 0 for the other mnemonics (the Python dict simply lacks the key and
generate_machine_code never reads it there). -/
structure PPEntry where
  mnemonic : Mnemonic
  B : Nat
  C : Nat
  D : Nat
deriving DecidableEq, Repr

/-- Value of an operand field of a record. -/
def fieldVal (e : PPEntry) : FieldName → Nat
| .B => e.B
| .C => e.C
| .D => e.D

/-- The packed instruction word, exactly as generate_machine_code builds it:
start from A and OR in each field shifted to its offset. -/
def instruction_word (e : PPEntry) : Nat :=
  match e.mnemonic with
  | .LDC => (opcodeA .LDC ||| (e.B <<< 4)) ||| (e.C <<< 11)
  | .LDM => (opcodeA .LDM ||| (e.B <<< 4)) ||| (e.C <<< 19)
  | .STM => (opcodeA .STM ||| (e.B <<< 4)) ||| (e.C <<< 11)
  | .BIN_OP => ((opcodeA .BIN_OP ||| (e.B <<< 4)) ||| (e.C <<< 11)) ||| (e.D <<< 21)

/-- Little-endian byte serialization of a word into a fixed number of
bytes, least-significant byte first (the digit loop behind
int.to_bytes(size, "little")). -/
def leBytes : Nat → Nat → List Nat
| 0, _ => []
| n + 1, w => w % 256 :: leBytes n (w / 256)

/-- generate_machine_code: pack the word and serialize it to byte_size
little-endian bytes.  Python's int.to_bytes raises OverflowError when the
word needs more than byte_size bytes; that raise is modelled as none. -/
def generate_machine_code (e : PPEntry) : Option (List Nat) :=
  let w := instruction_word e
  let size := byte_size e.mnemonic
  if w < 2 ^ (8 * size) then some (leBytes size w) else none

/-- Reconstruction of the unsigned word from little-endian bytes (the
decode direction described by the spec). -/
def fromBytesLE (bs : List Nat) : Nat :=
  bs.foldr (fun b acc => b + 256 * acc) 0

/-- Extraction of one field from a reconstructed word, as the spec defines
decode: shift right by the offset and mask to the width. -/
def extractField (w off wd : Nat) : Nat :=
  (w >>> off) &&& (2 ^ wd - 1)

/-- Values fit their declared widths: every operand field of the record is
below 2 to its declared bit width. -/
def fits (e : PPEntry) : Prop :=
  ∀ f ∈ fields_list e.mnemonic, fieldVal e f < 2 ^ bitWidth e.mnemonic f

instance (e : PPEntry) : Decidable (fits e) := by
  unfold fits; infer_instance

/- ------------------------------------------------------------------ -/
/- The parser (parse_line and its per-mnemonic operand grammars).      -/
/- ------------------------------------------------------------------ -/

/-- Python str.strip: drop whitespace from both ends. -/
def pyStrip (s : List Char) : List Char :=
  ((s.dropWhile Char.isWhitespace).reverse.dropWhile Char.isWhitespace).reverse

/-- The greedy whitespace run of the regex (backslash-s star). -/
def skipWs (s : List Char) : List Char :=
  s.dropWhile Char.isWhitespace

/-- Consume one literal character of the pattern. -/
def chomp (c : Char) : List Char → Option (List Char)
| x :: xs => if x = c then some xs else none
| [] => none

/-- Decimal value of a digit string (int() on a regex capture). -/
def toNatDigits (ds : List Char) : Nat :=
  ds.foldl (fun a c => 10 * a + (c.toNat - 48)) 0

/-- The capture group of one or more digits: the greedy maximal digit run,
which must be nonempty.  Returns its value and the rest of the text. -/
def digits1 (s : List Char) : Option (Nat × List Char) :=
  let ds := s.takeWhile Char.isDigit
  if ds.isEmpty then none
  else some (toNatDigits ds, s.dropWhile Char.isDigit)

/-- Full match of the LDC operand pattern R[(digits)] ws* = ws* (digits):
returns the captures B and C. -/
def parseLDC (s : List Char) : Option (Nat × Nat) := do
  let s ← chomp 'R' s
  let s ← chomp '[' s
  let (b, s) ← digits1 s
  let s ← chomp ']' s
  let s := skipWs s
  let s ← chomp '=' s
  let s := skipWs s
  let (c, s) ← digits1 s
  if s.isEmpty then pure (b, c) else none

/-- Full match of the LDM operand pattern R[(digits)] ws* = ws* M[(digits)]:
returns the captures C and B, in that order. -/
def parseLDM (s : List Char) : Option (Nat × Nat) := do
  let s ← chomp 'R' s
  let s ← chomp '[' s
  let (c, s) ← digits1 s
  let s ← chomp ']' s
  let s := skipWs s
  let s ← chomp '=' s
  let s := skipWs s
  let s ← chomp 'M' s
  let s ← chomp '[' s
  let (b, s) ← digits1 s
  let s ← chomp ']' s
  if s.isEmpty then pure (c, b) else none

/-- Full match of the STM operand pattern M[R[(digits)]] ws* = ws*
R[(digits)]: returns the captures B and C. -/
def parseSTM (s : List Char) : Option (Nat × Nat) := do
  let s ← chomp 'M' s
  let s ← chomp '[' s
  let s ← chomp 'R' s
  let s ← chomp '[' s
  let (b, s) ← digits1 s
  let s ← chomp ']' s
  let s ← chomp ']' s
  let s := skipWs s
  let s ← chomp '=' s
  let s := skipWs s
  let s ← chomp 'R' s
  let s ← chomp '[' s
  let (c, s) ← digits1 s
  let s ← chomp ']' s
  if s.isEmpty then pure (b, c) else none

/-- Full match of the BIN_OP operand pattern R[(digits)], ws* R[(digits)],
ws* (digits): returns the captures D, B and C. -/
def parseBINOP (s : List Char) : Option (Nat × Nat × Nat) := do
  let s ← chomp 'R' s
  let s ← chomp '[' s
  let (d, s) ← digits1 s
  let s ← chomp ']' s
  let s ← chomp ',' s
  let s := skipWs s
  let s ← chomp 'R' s
  let s ← chomp '[' s
  let (b, s) ← digits1 s
  let s ← chomp ']' s
  let s ← chomp ',' s
  let s := skipWs s
  let (c, s) ← digits1 s
  if s.isEmpty then pure (d, b, c) else none

/-- ASCII upper-casing of the mnemonic token (str.upper). -/
def upper (s : List Char) : List Char :=
  s.map Char.toUpper

/-- Case-insensitive lookup of the first token in COMMAND_SPEC. -/
def lookup_mnemonic (tok : List Char) : Option Mnemonic :=
  if upper tok = "LDC".toList then some .LDC
  else if upper tok = "LDM".toList then some .LDM
  else if upper tok = "STM".toList then some .STM
  else if upper tok = "BIN_OP".toList then some .BIN_OP
  else none

/-- The errors parse_line reports: ValueError for an unknown mnemonic and
SyntaxError for an operand text that does not match the grammar.  Both
carry the physical line number printed in the message. -/
inductive AsmError
| unknownMnemonic (line_num : Nat)
| syntaxError (line_num : Nat) (m : Mnemonic)
deriving DecidableEq, Repr

/-- parse_line: strip the line; an empty or comment line yields no record;
otherwise split off the first whitespace-delimited token as the mnemonic
(split with maxsplit 1: the operand text is the rest after the first
whitespace run), look it up case-insensitively and run the per-mnemonic
operand grammar. -/
def parse_line (line : List Char) (line_num : Nat) :
    Except AsmError (Option PPEntry) :=
  let l := pyStrip line
  if l.isEmpty then .ok none
  else if l.head? = some '#' then .ok none
  else
    let tok := l.takeWhile (fun c => ¬ c.isWhitespace)
    let operand := (l.dropWhile (fun c => ¬ c.isWhitespace)).dropWhile Char.isWhitespace
    match lookup_mnemonic tok with
    | none => .error (.unknownMnemonic line_num)
    | some .LDC =>
      match parseLDC operand with
      | none => .error (.syntaxError line_num .LDC)
      | some (b, c) => .ok (some ⟨.LDC, b, c, 0⟩)
    | some .LDM =>
      match parseLDM operand with
      | none => .error (.syntaxError line_num .LDM)
      | some (c, b) => .ok (some ⟨.LDM, b, c, 0⟩)
    | some .STM =>
      match parseSTM operand with
      | none => .error (.syntaxError line_num .STM)
      | some (b, c) => .ok (some ⟨.STM, b, c, 0⟩)
    | some .BIN_OP =>
      match parseBINOP operand with
      | none => .error (.syntaxError line_num .BIN_OP)
      | some (d, b, c) => .ok (some ⟨.BIN_OP, b, c, d⟩)

/-- The enumerate(lines, 1) loop of assemble_to_pp, with the error that the
Python version prints (before returning the empty list) made explicit. -/
def assembleE (i : Nat) : List (List Char) → Except AsmError (List PPEntry)
| [] => .ok []
| l :: ls =>
  match parse_line l i with
  | .error e => .error e
  | .ok none => assembleE (i + 1) ls
  | .ok (some pp) => (assembleE (i + 1) ls).map (pp :: ·)

/-- assemble_to_pp: the intermediate representation of the whole file;
on the first error the Python function prints it and returns []. -/
def assemble_to_pp (lines : List (List Char)) : List PPEntry :=
  match assembleE 1 lines with
  | .error _ => []
  | .ok l => l

/-- The machine-code accumulation loop of main: concatenate the bytes of
every record, aborting on the first OverflowError. -/
def genAll : List PPEntry → Option (List Nat)
| [] => some []
| e :: es =>
  match generate_machine_code e with
  | none => none
  | some bs => (genAll es).map (bs ++ ·)

/-- Observable outcome of main after assemble_to_pp: earlyReturn models
the return taken when pp_list is empty (error already printed, or simply
no instructions) with no output file written; genError models the return
after an OverflowError during generation; wroteOutput carries the bytes
written to the output file and the reported instruction count. -/
inductive MainOutcome
| earlyReturn
| genError
| wroteOutput (bytes : List Nat) (count : Nat)
deriving DecidableEq, Repr

/-- The translation-and-write flow of main (file I/O itself is outside the
model; the bytes of wroteOutput are the full content written). -/
def mainModel (lines : List (List Char)) : MainOutcome :=
  let pp_list := assemble_to_pp lines
  if pp_list.isEmpty then .earlyReturn
  else
    match genAll pp_list with
    | none => .genError
    | some bs => .wroteOutput bs pp_list.length

end Assembler

namespace Assembler

/- ------------------------------------------------------------------ -/
/- Arithmetic facts about the packed word and its serialization.       -/
/- ------------------------------------------------------------------ -/

/-- OR of a small accumulator with a field shifted past it is addition. -/
theorem or_shift (a c k : Nat) (h : a < 2 ^ k) :
    a ||| (c <<< k) = a + 2 ^ k * c := by
  rw [Nat.shiftLeft_eq, Nat.mul_comm c, Nat.or_comm, ← Nat.mul_add_lt_is_or h c]
  omega

/-- The LDC word in plain arithmetic (needs B inside its 7-bit field so
that it stays clear of the C field). -/
theorem word_LDC (B C D : Nat) (hB : B < 128) :
    instruction_word ⟨.LDC, B, C, D⟩ = 4 + 16 * B + 2048 * C := by
  show (4 ||| (B <<< 4)) ||| (C <<< 11) = _
  have h1 : (4 : Nat) ||| (B <<< 4) = 4 + 16 * B := by
    have h := or_shift 4 B 4 (by norm_num)
    norm_num at h
    exact h
  rw [h1]
  have h2 := or_shift (4 + 16 * B) C 11 (by norm_num; omega)
  norm_num at h2
  exact h2

/-- The LDM word in plain arithmetic (needs B inside its 15-bit field). -/
theorem word_LDM (B C D : Nat) (hB : B < 32768) :
    instruction_word ⟨.LDM, B, C, D⟩ = 14 + 16 * B + 524288 * C := by
  show (14 ||| (B <<< 4)) ||| (C <<< 19) = _
  have h1 : (14 : Nat) ||| (B <<< 4) = 14 + 16 * B := by
    have h := or_shift 14 B 4 (by norm_num)
    norm_num at h
    exact h
  rw [h1]
  have h2 := or_shift (14 + 16 * B) C 19 (by norm_num; omega)
  norm_num at h2
  exact h2

/-- The STM word in plain arithmetic (needs B inside its 7-bit field). -/
theorem word_STM (B C D : Nat) (hB : B < 128) :
    instruction_word ⟨.STM, B, C, D⟩ = 10 + 16 * B + 2048 * C := by
  show (10 ||| (B <<< 4)) ||| (C <<< 11) = _
  have h1 : (10 : Nat) ||| (B <<< 4) = 10 + 16 * B := by
    have h := or_shift 10 B 4 (by norm_num)
    norm_num at h
    exact h
  rw [h1]
  have h2 := or_shift (10 + 16 * B) C 11 (by norm_num; omega)
  norm_num at h2
  exact h2

/-- The BIN_OP word in plain arithmetic (needs B inside its 7-bit field
and C inside its 10-bit field). -/
theorem word_BINOP (B C D : Nat) (hB : B < 128) (hC : C < 1024) :
    instruction_word ⟨.BIN_OP, B, C, D⟩ = 5 + 16 * B + 2048 * C + 2097152 * D := by
  show ((5 ||| (B <<< 4)) ||| (C <<< 11)) ||| (D <<< 21) = _
  have h1 : (5 : Nat) ||| (B <<< 4) = 5 + 16 * B := by
    have h := or_shift 5 B 4 (by norm_num)
    norm_num at h
    exact h
  rw [h1]
  have h2 := or_shift (5 + 16 * B) C 11 (by norm_num; omega)
  norm_num at h2
  rw [h2]
  have h3 := or_shift (5 + 16 * B + 2048 * C) D 21 (by norm_num; omega)
  norm_num at h3
  exact h3

/-- Serialization always produces exactly the requested number of bytes. -/
theorem leBytes_length (n w : Nat) : (leBytes n w).length = n := by
  induction n generalizing w with
  | zero => rfl
  | succ n ih => simp [leBytes, ih]

/-- Deserializing the serialized word recovers it modulo the capacity. -/
theorem fromBytesLE_leBytes (n w : Nat) :
    fromBytesLE (leBytes n w) = w % 2 ^ (8 * n) := by
  induction n generalizing w with
  | zero => simp [leBytes, fromBytesLE, Nat.mod_one]
  | succ n ih =>
    have hcap : (2 : Nat) ^ (8 * (n + 1)) = 256 * 2 ^ (8 * n) := by
      rw [show 8 * (n + 1) = 8 + 8 * n by ring, pow_add]
      norm_num
    show w % 256 + 256 * fromBytesLE (leBytes n (w / 256)) = _
    rw [ih, hcap, Nat.mod_mul]

end Assembler

namespace Assembler

/-- Extracting a field from a word given as low part + field + high part. -/
theorem extract_of_eq (w lo v hi off wd : Nat)
    (hw : w = lo + 2 ^ off * v + 2 ^ (off + wd) * hi)
    (hlo : lo < 2 ^ off) (hv : v < 2 ^ wd) :
    extractField w off wd = v := by
  subst hw
  unfold extractField
  rw [Nat.shiftRight_eq_div_pow, Nat.and_pow_two_sub_one_eq_mod]
  rw [pow_add]
  rw [show lo + 2 ^ off * v + 2 ^ off * 2 ^ wd * hi
        = lo + 2 ^ off * (v + 2 ^ wd * hi) by ring]
  rw [Nat.add_mul_div_left _ _ (Nat.two_pow_pos off), Nat.div_eq_of_lt hlo]
  rw [Nat.zero_add, Nat.add_mul_mod_self_left, Nat.mod_eq_of_lt hv]

/-- Unpacking the fits hypothesis for an LDC record. -/
theorem fits_LDC (B C D : Nat) (h : fits ⟨.LDC, B, C, D⟩) :
    B < 128 ∧ C < 67108864 := by
  have hB := h .B (by simp [fields_list])
  have hC := h .C (by simp [fields_list])
  norm_num [fieldVal, bitWidth] at hB hC
  exact ⟨hB, hC⟩

/-- Unpacking the fits hypothesis for an LDM record. -/
theorem fits_LDM (B C D : Nat) (h : fits ⟨.LDM, B, C, D⟩) :
    B < 32768 ∧ C < 128 := by
  have hB := h .B (by simp [fields_list])
  have hC := h .C (by simp [fields_list])
  norm_num [fieldVal, bitWidth] at hB hC
  exact ⟨hB, hC⟩

/-- Unpacking the fits hypothesis for an STM record. -/
theorem fits_STM (B C D : Nat) (h : fits ⟨.STM, B, C, D⟩) :
    B < 128 ∧ C < 128 := by
  have hB := h .B (by simp [fields_list])
  have hC := h .C (by simp [fields_list])
  norm_num [fieldVal, bitWidth] at hB hC
  exact ⟨hB, hC⟩

/-- Unpacking the fits hypothesis for a BIN_OP record. -/
theorem fits_BINOP (B C D : Nat) (h : fits ⟨.BIN_OP, B, C, D⟩) :
    B < 128 ∧ C < 1024 ∧ D < 128 := by
  have hB := h .B (by simp [fields_list])
  have hC := h .C (by simp [fields_list])
  have hD := h .D (by simp [fields_list])
  norm_num [fieldVal, bitWidth] at hB hC hD
  exact ⟨hB, hC, hD⟩

/-- Bound 2 to the index just past the highest bit any in-range field can
touch: 37 of 40 available bits for LDC, 26 of 32 for LDM, 18 of 24 for
STM, 28 of 32 for BIN_OP. -/
def used_bits : Mnemonic → Nat
| .LDC => 37
| .LDM => 26
| .STM => 18
| .BIN_OP => 28

end Assembler

namespace Assembler

/-- C10: for every supported mnemonic and every record whose field values
fit their declared bit widths, generate_machine_code never raises: the
packed word stays below 2 to the used-bit bound (37 bits of 40 for LDC,
26 of 32 for LDM, 18 of 24 for STM, 28 of 32 for BIN_OP), so the
conversion to byte_size little-endian bytes succeeds. -/
theorem c10_fits_never_raises (e : PPEntry) (h : fits e) :
    instruction_word e < 2 ^ used_bits e.mnemonic
    ∧ used_bits e.mnemonic ≤ 8 * byte_size e.mnemonic
    ∧ (generate_machine_code e).isSome = true := by
  obtain ⟨m, B, C, D⟩ := e
  cases m with
  | LDC =>
    obtain ⟨hB, hC⟩ := fits_LDC B C D h
    have hw := word_LDC B C D hB
    have hlt : instruction_word ⟨.LDC, B, C, D⟩ < 2 ^ (8 * byte_size Mnemonic.LDC) := by
      rw [hw]; norm_num [byte_size]; omega
    refine ⟨?_, by norm_num [used_bits, byte_size], ?_⟩
    · rw [hw]; norm_num [used_bits]; omega
    · simp only [generate_machine_code]
      rw [if_pos hlt]
      rfl
  | LDM =>
    obtain ⟨hB, hC⟩ := fits_LDM B C D h
    have hw := word_LDM B C D hB
    have hlt : instruction_word ⟨.LDM, B, C, D⟩ < 2 ^ (8 * byte_size Mnemonic.LDM) := by
      rw [hw]; norm_num [byte_size]; omega
    refine ⟨?_, by norm_num [used_bits, byte_size], ?_⟩
    · rw [hw]; norm_num [used_bits]; omega
    · simp only [generate_machine_code]
      rw [if_pos hlt]
      rfl
  | STM =>
    obtain ⟨hB, hC⟩ := fits_STM B C D h
    have hw := word_STM B C D hB
    have hlt : instruction_word ⟨.STM, B, C, D⟩ < 2 ^ (8 * byte_size Mnemonic.STM) := by
      rw [hw]; norm_num [byte_size]; omega
    refine ⟨?_, by norm_num [used_bits, byte_size], ?_⟩
    · rw [hw]; norm_num [used_bits]; omega
    · simp only [generate_machine_code]
      rw [if_pos hlt]
      rfl
  | BIN_OP =>
    obtain ⟨hB, hC, hD⟩ := fits_BINOP B C D h
    have hw := word_BINOP B C D hB hC
    have hlt : instruction_word ⟨.BIN_OP, B, C, D⟩ < 2 ^ (8 * byte_size Mnemonic.BIN_OP) := by
      rw [hw]; norm_num [byte_size]; omega
    refine ⟨?_, by norm_num [used_bits, byte_size], ?_⟩
    · rw [hw]; norm_num [used_bits]; omega
    · simp only [generate_machine_code]
      rw [if_pos hlt]
      rfl

/-- Witness for c10_fits_never_raises at the LDC record with B 91, C 651. -/
theorem c10_witness :
    fits ⟨Mnemonic.LDC, 91, 651, 0⟩
    ∧ (generate_machine_code ⟨Mnemonic.LDC, 91, 651, 0⟩).isSome = true :=
  ⟨by decide, (c10_fits_never_raises ⟨Mnemonic.LDC, 91, 651, 0⟩ (by decide)).2.2⟩

end Assembler

namespace Assembler

/-- C3: round trip.  For every supported mnemonic and every record whose
field values fit their declared bit widths, reconstructing the word from
the little-endian bytes returned by generate_machine_code and extracting
each declared field as (word >>> bitOffset) &&& (2 ^ bitWidth - 1) gives
back exactly the original field values. -/
theorem c3_encode_decode_roundtrip (e : PPEntry) (bs : List Nat)
    (hfit : fits e) (hgen : generate_machine_code e = some bs) :
    ∀ f ∈ fields_list e.mnemonic,
      extractField (fromBytesLE bs) (bitOffset e.mnemonic f) (bitWidth e.mnemonic f)
        = fieldVal e f := by
  obtain ⟨m, B, C, D⟩ := e
  simp only [generate_machine_code] at hgen
  cases m with
  | LDC =>
    obtain ⟨hB, hC⟩ := fits_LDC B C D hfit
    have hw := word_LDC B C D hB
    rw [hw] at hgen
    rw [if_pos (show 4 + 16 * B + 2048 * C < 2 ^ (8 * byte_size Mnemonic.LDC) by
      norm_num [byte_size]; omega)] at hgen
    injection hgen with hbs
    have hword : fromBytesLE bs = 4 + 16 * B + 2048 * C := by
      rw [← hbs, fromBytesLE_leBytes]
      exact Nat.mod_eq_of_lt (by norm_num [byte_size]; omega)
    intro f hf
    simp only [fields_list, List.mem_cons, List.not_mem_nil, or_false] at hf
    rcases hf with rfl | rfl
    · simp only [bitOffset, bitWidth, fieldVal]
      rw [hword]
      exact extract_of_eq _ 4 B C 4 7 (by norm_num) (by norm_num) (by omega)
    · simp only [bitOffset, bitWidth, fieldVal]
      rw [hword]
      exact extract_of_eq _ (4 + 16 * B) C 0 11 26 (by norm_num)
        (by norm_num; omega) (by omega)
  | LDM =>
    obtain ⟨hB, hC⟩ := fits_LDM B C D hfit
    have hw := word_LDM B C D hB
    rw [hw] at hgen
    rw [if_pos (show 14 + 16 * B + 524288 * C < 2 ^ (8 * byte_size Mnemonic.LDM) by
      norm_num [byte_size]; omega)] at hgen
    injection hgen with hbs
    have hword : fromBytesLE bs = 14 + 16 * B + 524288 * C := by
      rw [← hbs, fromBytesLE_leBytes]
      exact Nat.mod_eq_of_lt (by norm_num [byte_size]; omega)
    intro f hf
    simp only [fields_list, List.mem_cons, List.not_mem_nil, or_false] at hf
    rcases hf with rfl | rfl
    · simp only [bitOffset, bitWidth, fieldVal]
      rw [hword]
      exact extract_of_eq _ (14 + 16 * B) C 0 19 7 (by norm_num)
        (by norm_num; omega) (by omega)
    · simp only [bitOffset, bitWidth, fieldVal]
      rw [hword]
      exact extract_of_eq _ 14 B C 4 15 (by norm_num) (by norm_num) (by omega)
  | STM =>
    obtain ⟨hB, hC⟩ := fits_STM B C D hfit
    have hw := word_STM B C D hB
    rw [hw] at hgen
    rw [if_pos (show 10 + 16 * B + 2048 * C < 2 ^ (8 * byte_size Mnemonic.STM) by
      norm_num [byte_size]; omega)] at hgen
    injection hgen with hbs
    have hword : fromBytesLE bs = 10 + 16 * B + 2048 * C := by
      rw [← hbs, fromBytesLE_leBytes]
      exact Nat.mod_eq_of_lt (by norm_num [byte_size]; omega)
    intro f hf
    simp only [fields_list, List.mem_cons, List.not_mem_nil, or_false] at hf
    rcases hf with rfl | rfl
    · simp only [bitOffset, bitWidth, fieldVal]
      rw [hword]
      exact extract_of_eq _ 10 B C 4 7 (by norm_num) (by norm_num) (by omega)
    · simp only [bitOffset, bitWidth, fieldVal]
      rw [hword]
      exact extract_of_eq _ (10 + 16 * B) C 0 11 7 (by norm_num)
        (by norm_num; omega) (by omega)
  | BIN_OP =>
    obtain ⟨hB, hC, hD⟩ := fits_BINOP B C D hfit
    have hw := word_BINOP B C D hB hC
    rw [hw] at hgen
    rw [if_pos (show 5 + 16 * B + 2048 * C + 2097152 * D
        < 2 ^ (8 * byte_size Mnemonic.BIN_OP) by
      norm_num [byte_size]; omega)] at hgen
    injection hgen with hbs
    have hword : fromBytesLE bs = 5 + 16 * B + 2048 * C + 2097152 * D := by
      rw [← hbs, fromBytesLE_leBytes]
      exact Nat.mod_eq_of_lt (by norm_num [byte_size]; omega)
    intro f hf
    simp only [fields_list, List.mem_cons, List.not_mem_nil, or_false] at hf
    rcases hf with rfl | rfl | rfl
    · simp only [bitOffset, bitWidth, fieldVal]
      rw [hword]
      exact extract_of_eq _ (5 + 16 * B + 2048 * C) D 0 21 7 (by norm_num)
        (by norm_num; omega) (by omega)
    · simp only [bitOffset, bitWidth, fieldVal]
      rw [hword]
      exact extract_of_eq _ 5 B (C + 1024 * D) 4 7 (by norm_num; ring)
        (by norm_num) (by omega)
    · simp only [bitOffset, bitWidth, fieldVal]
      rw [hword]
      exact extract_of_eq _ (5 + 16 * B) C D 11 10 (by norm_num)
        (by norm_num; omega) (by omega)

/-- Witness for c3_encode_decode_roundtrip at the LDC record with B 91,
C 651 and its concrete encoding. -/
theorem c3_witness :
    fits ⟨Mnemonic.LDC, 91, 651, 0⟩
    ∧ generate_machine_code ⟨Mnemonic.LDC, 91, 651, 0⟩ = some [180, 93, 20, 0, 0]
    ∧ ∀ f ∈ fields_list Mnemonic.LDC,
        extractField (fromBytesLE [180, 93, 20, 0, 0])
          (bitOffset Mnemonic.LDC f) (bitWidth Mnemonic.LDC f)
          = fieldVal ⟨Mnemonic.LDC, 91, 651, 0⟩ f :=
  ⟨by decide, by decide,
    c3_encode_decode_roundtrip ⟨Mnemonic.LDC, 91, 651, 0⟩ [180, 93, 20, 0, 0]
      (by decide) (by decide)⟩

end Assembler

namespace Assembler

/-- C4 counterexample: an LDC record with C equal to 2 ^ 29 makes the
packed word need 41 bits, so int.to_bytes raises OverflowError and no
byte sequence of any length is returned. -/
theorem c4_cex_overflow_raises :
    generate_machine_code ⟨Mnemonic.LDC, 0, 2 ^ 29, 0⟩ = none := by decide

/-- C4 as amended: whenever generate_machine_code does return a byte
sequence, its length equals the byte size of the layout, which is 5 for
LDC, 4 for LDM, 3 for STM and 4 for BIN_OP. -/
theorem c4_length_of_some :
    (∀ (e : PPEntry) (bs : List Nat),
        generate_machine_code e = some bs → bs.length = byte_size e.mnemonic)
    ∧ byte_size .LDC = 5 ∧ byte_size .LDM = 4
    ∧ byte_size .STM = 3 ∧ byte_size .BIN_OP = 4 := by
  refine ⟨?_, rfl, rfl, rfl, rfl⟩
  intro e bs hgen
  simp only [generate_machine_code] at hgen
  split at hgen
  · injection hgen with hbs
    rw [← hbs, leBytes_length]
  · exact absurd hgen (by simp)

/-- Witness for the amended C4 at the STM record with B 5, C 8. -/
theorem c4_witness :
    generate_machine_code ⟨Mnemonic.STM, 5, 8, 0⟩ = some [90, 64, 0]
    ∧ ([90, 64, 0] : List Nat).length = byte_size Mnemonic.STM :=
  ⟨by decide, c4_length_of_some.1 ⟨Mnemonic.STM, 5, 8, 0⟩ [90, 64, 0] (by decide)⟩

/-- C1: evaluation at the failing input.  The record LDC with B 128
exceeds the 7-bit field of B (max allowed 127), yet generate_machine_code
silently returns bytes instead of any overflow error; the stray bit lands
in the C field, so decoding the produced word gives B 0 and C 1. -/
theorem c1_overflow_not_rejected :
    2 ^ bitWidth Mnemonic.LDC FieldName.B - 1 = 127
    ∧ generate_machine_code ⟨Mnemonic.LDC, 128, 0, 0⟩ = some [4, 8, 0, 0, 0]
    ∧ extractField (fromBytesLE [4, 8, 0, 0, 0])
        (bitOffset Mnemonic.LDC .B) (bitWidth Mnemonic.LDC .B) = 0
    ∧ extractField (fromBytesLE [4, 8, 0, 0, 0])
        (bitOffset Mnemonic.LDC .C) (bitWidth Mnemonic.LDC .C) = 1 := by
  refine ⟨by decide, by decide, ?_, ?_⟩ <;> decide

/-- C2: evaluation at the test vectors of COMMAND_SPEC and the spec.
Only the LDM vector matches the encoder; LDC, STM and BIN_OP produce
different bytes than the listed expected sequences, and the four-line
source file therefore produces a different concatenation than the spec
lists. -/
theorem c2_test_vectors_disagree :
    generate_machine_code ⟨Mnemonic.LDC, 91, 651, 0⟩ = some [0xB4, 0x5D, 0x14, 0, 0]
    ∧ [0xB4, 0x5D, 0x14, 0, 0] ≠ [0xE4, 0x5D, 0x14, 0, 0]
    ∧ generate_machine_code ⟨Mnemonic.LDM, 820, 53, 0⟩ = some [0x4E, 0x33, 0xA8, 0x01]
    ∧ generate_machine_code ⟨Mnemonic.STM, 5, 8, 0⟩ = some [0x5A, 0x40, 0x00]
    ∧ [0x5A, 0x40, 0x00] ≠ [0x5A, 0x98, 0x02]
    ∧ generate_machine_code ⟨Mnemonic.BIN_OP, 85, 310, 6⟩ = some [0x55, 0xB5, 0xC9, 0x00]
    ∧ [0x55, 0xB5, 0xC9, 0x00] ≠ [0x55, 0xB5, 0xA9, 0x07]
    ∧ mainModel ["LDC R[91] = 651".toList, "LDM R[53] = M[820]".toList,
        "STM M[R[5]] = R[8]".toList, "BIN_OP R[6], R[85], 310".toList]
        = .wroteOutput [0xB4, 0x5D, 0x14, 0, 0, 0x4E, 0x33, 0xA8, 0x01,
            0x5A, 0x40, 0x00, 0x55, 0xB5, 0xC9, 0x00] 4
    ∧ ([0xB4, 0x5D, 0x14, 0, 0, 0x4E, 0x33, 0xA8, 0x01,
          0x5A, 0x40, 0x00, 0x55, 0xB5, 0xC9, 0x00] : List Nat)
        ≠ [0xE4, 0x5D, 0x14, 0, 0, 0x4E, 0x33, 0xA8, 0x01,
            0x5A, 0x98, 0x02, 0x55, 0xB5, 0xA9, 0x07] := by
  refine ⟨by decide, by decide, by decide, by decide, by decide,
    by decide, by decide, ?_, by decide⟩
  decide

end Assembler

namespace Assembler

/-- Masking with 15 is reduction modulo 16. -/
theorem and15_eq_mod (x : Nat) : x &&& 15 = x % 16 := by
  have h := Nat.and_pow_two_sub_one_eq_mod x 4
  norm_num at h
  exact h

/-- OR with a multiple of 16 does not change the low nibble. -/
theorem or_mod16 (x y : Nat) (hy : y % 16 = 0) : (x ||| y) % 16 = x % 16 := by
  calc (x ||| y) % 16 = (x ||| y) &&& 15 := (and15_eq_mod _).symm
    _ = (x &&& 15) ||| (y &&& 15) := Nat.and_distrib_right x y 15
    _ = (x % 16) ||| (y % 16) := by rw [and15_eq_mod, and15_eq_mod]
    _ = x % 16 := by rw [hy, Nat.or_zero]

/-- A value shifted by at least 4 bits has a zero low nibble. -/
theorem shiftLeft_mod16 (x k : Nat) (hk : 4 ≤ k) : (x <<< k) % 16 = 0 := by
  rw [Nat.shiftLeft_eq]
  obtain ⟨j, rfl⟩ : ∃ j, k = 4 + j := ⟨k - 4, by omega⟩
  rw [pow_add]
  rw [show x * (2 ^ 4 * 2 ^ j) = x * 2 ^ j * 2 ^ 4 by ring]
  norm_num [Nat.mul_mod_left]

/-- The low nibble of every packed word is the opcode, whatever the field
values are: each field is shifted by at least 4 bits, so OR never touches
bits 0 to 3, and every opcode is below 16. -/
theorem instruction_word_mod16 (e : PPEntry) :
    instruction_word e % 16 = opcodeA e.mnemonic := by
  obtain ⟨m, B, C, D⟩ := e
  cases m <;>
    simp only [instruction_word, opcodeA] <;>
    rw [or_mod16 _ _ (shiftLeft_mod16 _ _ (by norm_num))] <;>
    try rw [or_mod16 _ _ (shiftLeft_mod16 _ _ (by norm_num))]
  case BIN_OP => rw [or_mod16 _ _ (shiftLeft_mod16 _ _ (by norm_num))]

/-- C5: whenever generate_machine_code returns bytes, the low 4 bits of
the first byte are the opcode of the layout: 4 for LDC, 14 for LDM, 10
for STM, 5 for BIN_OP. -/
theorem c5_opcode_low_nibble :
    (∀ (e : PPEntry) (b : Nat) (rest : List Nat),
        generate_machine_code e = some (b :: rest) →
        b &&& 15 = opcodeA e.mnemonic)
    ∧ opcodeA .LDC = 4 ∧ opcodeA .LDM = 14
    ∧ opcodeA .STM = 10 ∧ opcodeA .BIN_OP = 5 := by
  refine ⟨?_, rfl, rfl, rfl, rfl⟩
  intro e b rest hgen
  simp only [generate_machine_code] at hgen
  split at hgen
  · have hsize : ∃ n, byte_size e.mnemonic = n + 1 := by
      cases e.mnemonic <;> simp [byte_size]
    obtain ⟨n, hn⟩ := hsize
    rw [hn] at hgen
    simp only [leBytes] at hgen
    injection hgen with hgen
    injection hgen with hb hrest
    rw [← hb, and15_eq_mod,
      Nat.mod_mod_of_dvd _ (by norm_num : (16 : Nat) ∣ 256),
      instruction_word_mod16]
  · exact absurd hgen (by simp)

/-- Witness for C5 at the BIN_OP record with B 85, C 310, D 6. -/
theorem c5_witness :
    generate_machine_code ⟨Mnemonic.BIN_OP, 85, 310, 6⟩
      = some (0x55 :: [0xB5, 0xC9, 0x00])
    ∧ 0x55 &&& 15 = opcodeA Mnemonic.BIN_OP :=
  ⟨by decide,
    c5_opcode_low_nibble.1 ⟨Mnemonic.BIN_OP, 85, 310, 6⟩ 0x55 [0xB5, 0xC9, 0x00]
      (by decide)⟩

end Assembler

namespace Assembler

/-- Stripping a line whose first non-whitespace character is c (itself not
whitespace) keeps c as the first character. -/
theorem pyStrip_head (l : List Char) (c : Char) (hc : c.isWhitespace = false)
    (h : (l.dropWhile Char.isWhitespace).head? = some c) :
    (pyStrip l).head? = some c := by
  unfold pyStrip
  obtain ⟨t, ht⟩ : ∃ t, l.dropWhile Char.isWhitespace = c :: t := by
    cases hdrop : l.dropWhile Char.isWhitespace with
    | nil => rw [hdrop] at h; simp at h
    | cons x xs =>
      rw [hdrop] at h
      simp only [List.head?_cons, Option.some.injEq] at h
      exact ⟨xs, by rw [h]⟩
  rw [ht, List.reverse_cons, List.dropWhile_append]
  split
  · simp [List.dropWhile, hc]
  · simp

/-- A blank or comment line produces no record and raises no error. -/
theorem parse_line_skip (line : List Char) (n : Nat)
    (h : line.dropWhile Char.isWhitespace = []
      ∨ (line.dropWhile Char.isWhitespace).head? = some '#') :
    parse_line line n = .ok none := by
  rcases h with h | h
  · have hs : pyStrip line = [] := by unfold pyStrip; rw [h]; rfl
    simp [parse_line, hs]
  · have hh := pyStrip_head line '#' (by decide) h
    have hne : (pyStrip line).isEmpty = false := by
      cases hps : pyStrip line
      · rw [hps] at hh; simp at hh
      · rfl
    simp [parse_line, hne, hh]

/-- C7: a line that is empty after trimming, or whose first non-whitespace
character is the comment marker, produces no record and no error, and it
still advances the physical line counter used for later error messages. -/
theorem c7_skip_lines :
    (∀ (line : List Char) (n : Nat),
        (line.dropWhile Char.isWhitespace = []
          ∨ (line.dropWhile Char.isWhitespace).head? = some '#') →
        parse_line line n = .ok none)
    ∧ (∀ (line : List Char) (n : Nat) (rest : List (List Char)),
        (line.dropWhile Char.isWhitespace = []
          ∨ (line.dropWhile Char.isWhitespace).head? = some '#') →
        assembleE n (line :: rest) = assembleE (n + 1) rest) := by
  refine ⟨parse_line_skip, ?_⟩
  intro line n rest h
  simp [assembleE, parse_line_skip line n h]

/-- Witness for C7 at a concrete comment line with leading whitespace. -/
theorem c7_witness :
    parse_line ("  # note".toList) 5 = .ok none
    ∧ assembleE 3 ["  # note".toList, "LDC R[1] = 2".toList]
        = assembleE 4 ["LDC R[1] = 2".toList] :=
  ⟨c7_skip_lines.1 ("  # note".toList) 5 (by decide),
    c7_skip_lines.2 ("  # note".toList) 3 ["LDC R[1] = 2".toList] (by decide)⟩

/-- C6 counterexample: when the first instruction line is itself invalid,
the reported error carries line 1, not the line number of the second
instruction line, even though the second line has an operand syntax error
of its own. -/
theorem c6_cex_first_line_error :
    parse_line ("LDC y".toList) 2 = .error (.syntaxError 2 .LDC)
    ∧ assembleE 1 ["LDC x".toList, "LDC y".toList] = .error (.syntaxError 1 .LDC)
    ∧ mainModel ["LDC x".toList, "LDC y".toList] = .earlyReturn
    ∧ AsmError.syntaxError 1 .LDC ≠ AsmError.syntaxError 2 .LDC := by
  refine ⟨by rfl, by rfl, by decide, by decide⟩

/-- Assembly over a prefix whose lines all parse (to a record or to a
skip) propagates the first error of the remaining lines, with line
numbering advanced past the prefix. -/
theorem assembleE_error_append (pre : List (List Char)) (i : Nat)
    (rest : List (List Char)) (e : AsmError)
    (hpre : ∀ (j : Nat) (hj : j < pre.length),
      ∃ r, parse_line (pre.get ⟨j, hj⟩) (i + j) = .ok r)
    (herr : assembleE (i + pre.length) rest = .error e) :
    assembleE i (pre ++ rest) = .error e := by
  induction pre generalizing i with
  | nil =>
    simpa using herr
  | cons l pre ih =>
    obtain ⟨r, h0⟩ := hpre 0 (by simp)
    simp only [List.get, Nat.add_zero] at h0
    have hpre2 : ∀ (j : Nat) (hj : j < pre.length),
        ∃ r2, parse_line (pre.get ⟨j, hj⟩) ((i + 1) + j) = .ok r2 := by
      intro j hj
      obtain ⟨r2, h2⟩ := hpre (j + 1) (by simpa using Nat.succ_lt_succ hj)
      refine ⟨r2, ?_⟩
      rw [show (i + 1) + j = i + (j + 1) by omega]
      exact h2
    have herr2 : assembleE ((i + 1) + pre.length) rest = .error e := by
      rw [show (i + 1) + pre.length = i + (pre.length + 1) by omega]
      simpa using herr
    show assembleE i (l :: (pre ++ rest)) = .error e
    simp only [assembleE]
    rw [h0]
    cases r with
    | none => exact ih (i + 1) hpre2 herr2
    | some pp =>
      rw [ih (i + 1) hpre2 herr2]
      rfl

/-- C6 as amended: if every line before the failing one parses (to a
record or to a skip) at its physical line number, the error of the
failing line is reported with that line's physical number, whatever
follows it; and any assembly error makes main return before writing
anything, so zero bytes of output are produced. -/
theorem c6_failfast_line_two :
    (∀ (pre : List (List Char)) (bad : List Char) (rest : List (List Char))
        (e : AsmError),
        (∀ (j : Nat) (hj : j < pre.length),
          ∃ r, parse_line (pre.get ⟨j, hj⟩) (1 + j) = .ok r) →
        parse_line bad (1 + pre.length) = .error e →
        assembleE 1 (pre ++ bad :: rest) = .error e)
    ∧ (∀ (lines : List (List Char)) (e : AsmError),
        assembleE 1 lines = .error e → mainModel lines = .earlyReturn) := by
  constructor
  · intro pre bad rest e hpre hbad
    apply assembleE_error_append pre 1 (bad :: rest) e hpre
    simp only [assembleE]
    rw [hbad]
  · intro lines e h
    simp [mainModel, assemble_to_pp, h]

/-- Witness for the amended C6: a comment line, then a valid instruction,
then a bad line; the second instruction line sits at physical line 3 and
the reported error carries 3. -/
theorem c6_witness :
    assembleE 1 ["# hdr".toList, "LDC R[1] = 2".toList, "LDM bad".toList,
        "junk".toList] = .error (.syntaxError 3 .LDM)
    ∧ mainModel ["# hdr".toList, "LDC R[1] = 2".toList, "LDM bad".toList,
        "junk".toList] = .earlyReturn :=
  ⟨c6_failfast_line_two.1 ["# hdr".toList, "LDC R[1] = 2".toList]
      ("LDM bad".toList) ["junk".toList] (.syntaxError 3 .LDM)
      (by
        intro j hj
        match j, hj with
        | 0, _ => exact ⟨none, rfl⟩
        | 1, _ => exact ⟨some ⟨.LDC, 1, 2, 0⟩, rfl⟩
        | j + 2, hj =>
          exact absurd hj (by simp only [List.length_cons, List.length_nil]; omega))
      (by rfl),
    c6_failfast_line_two.2 _ (.syntaxError 3 .LDM)
      (c6_failfast_line_two.1 ["# hdr".toList, "LDC R[1] = 2".toList]
        ("LDM bad".toList) ["junk".toList] (.syntaxError 3 .LDM)
        (by
          intro j hj
          match j, hj with
          | 0, _ => exact ⟨none, rfl⟩
          | 1, _ => exact ⟨some ⟨.LDC, 1, 2, 0⟩, rfl⟩
          | j + 2, hj =>
            exact absurd hj (by simp only [List.length_cons, List.length_nil]; omega))
        (by rfl))⟩

/-- C9 counterexample: a source with zero instructions makes pp_list
empty, so main returns before writing the output file and before
reporting any count; no empty output file is written and no count of 0
is reported. -/
theorem c9_cex_zero_instructions :
    mainModel ["# only a comment".toList] = .earlyReturn
    ∧ mainModel ([] : List (List Char)) = .earlyReturn
    ∧ MainOutcome.earlyReturn ≠ .wroteOutput [] 0 := by
  refine ⟨by decide, by decide, by decide⟩

/-- C9 as amended: when the file assembles to at least one record and
every record encodes, main writes the full concatenation and reports the
record count. -/
theorem c9_success_nonempty (lines : List (List Char)) (pps : List PPEntry)
    (bs : List Nat) (h1 : assembleE 1 lines = .ok pps) (h2 : pps ≠ [])
    (h3 : genAll pps = some bs) :
    mainModel lines = .wroteOutput bs pps.length := by
  have hne : pps.isEmpty = false := by
    cases pps
    · exact absurd rfl h2
    · rfl
  simp [mainModel, assemble_to_pp, h1, hne, h3]

/-- Witness for the amended C9 at a one-instruction source. -/
theorem c9_witness :
    mainModel ["LDC R[1] = 2".toList] = .wroteOutput [20, 16, 0, 0, 0] 1 :=
  c9_success_nonempty ["LDC R[1] = 2".toList] [⟨.LDC, 1, 2, 0⟩]
    [20, 16, 0, 0, 0] (by rfl) (by decide) (by decide)

end Assembler

namespace Assembler

/-- A run of space characters, for stating whitespace insensitivity. -/
def spaces (k : Nat) : List Char := List.replicate k ' '

/-- Consuming the literal the text starts with succeeds. -/
theorem chomp_cons_self (c : Char) (t : List Char) : chomp c (c :: t) = some t := by
  simp [chomp]

/-- The whitespace run stops in front of a non-whitespace character. -/
theorem skipWs_not_ws (c : Char) (t : List Char) (h : c.isWhitespace = false) :
    skipWs (c :: t) = c :: t := by
  simp [skipWs, List.dropWhile_cons, h]

/-- The whitespace run swallows any number of leading spaces. -/
theorem skipWs_spaces_append (k : Nat) (r : List Char) :
    skipWs (spaces k ++ r) = skipWs r := by
  induction k with
  | zero => rfl
  | succ k ih =>
    have hsp : spaces (k + 1) ++ r = ' ' :: (spaces k ++ r) := by
      simp [spaces, List.replicate_succ]
    rw [hsp]
    show List.dropWhile Char.isWhitespace (' ' :: (spaces k ++ r)) = skipWs r
    rw [List.dropWhile_cons, if_pos (by rfl)]
    exact ih

/-- A decimal digit is not whitespace. -/
theorem not_ws_of_digit (c : Char) (h : c.isDigit = true) : c.isWhitespace = false := by
  cases hw : c.isWhitespace
  · rfl
  · exfalso
    have hc : c = ' ' ∨ c = '\t' ∨ c = '\r' ∨ c = '\n' := by
      simpa [Char.isWhitespace, or_assoc] using hw
    rcases hc with rfl | rfl | rfl | rfl <;> exact absurd h (by decide)

/-- The greedy digit capture takes exactly a nonempty all-digit prefix when
the following character is not a digit. -/
theorem digits1_exact (ds r : List Char) (h1 : ds ≠ [])
    (h2 : ∀ c ∈ ds, c.isDigit = true)
    (h3 : ∀ c, r.head? = some c → c.isDigit = false) :
    digits1 (ds ++ r) = some (toNatDigits ds, r) := by
  have ht : r.takeWhile Char.isDigit = [] := by
    cases r with
    | nil => rfl
    | cons c t =>
      rw [List.takeWhile_cons, h3 c rfl]
      rfl
  have hd : r.dropWhile Char.isDigit = r := by
    cases r with
    | nil => rfl
    | cons c t =>
      rw [List.dropWhile_cons, h3 c rfl]
      rfl
  have hne : ds.isEmpty = false := by
    cases ds
    · exact absurd rfl h1
    · rfl
  unfold digits1
  dsimp only
  rw [List.takeWhile_append_of_pos h2, List.dropWhile_append_of_pos h2, ht, hd,
    List.append_nil, hne]
  rfl

/-- LDC operand parsing with any amount of whitespace in the two
whitespace slots around the equals sign. -/
theorem parseLDC_ws (k1 k2 : Nat) (ds1 ds2 : List Char)
    (h1 : ds1 ≠ []) (h2 : ds2 ≠ [])
    (hd1 : ∀ c ∈ ds1, c.isDigit = true) (hd2 : ∀ c ∈ ds2, c.isDigit = true) :
    parseLDC ('R' :: '[' :: (ds1 ++ ']' :: (spaces k1 ++ '=' :: (spaces k2 ++ ds2))))
      = some (toNatDigits ds1, toNatDigits ds2) := by
  have e1 := digits1_exact ds1 (']' :: (spaces k1 ++ '=' :: (spaces k2 ++ ds2))) h1 hd1
    (by intro c hc; injection hc with hc; rw [← hc]; rfl)
  have e2 := digits1_exact ds2 [] h2 hd2 (by intro c hc; simp at hc)
  obtain ⟨c2, t2, hds2⟩ : ∃ c t, ds2 = c :: t := by
    cases ds2
    · exact absurd rfl h2
    · exact ⟨_, _, rfl⟩
  have hsk2 : skipWs (spaces k2 ++ ds2) = ds2 := by
    rw [skipWs_spaces_append, hds2,
      skipWs_not_ws _ _ (not_ws_of_digit c2 (hd2 c2 (by rw [hds2]; simp)))]
  have e3 : digits1 ds2 = some (toNatDigits ds2, []) := by
    simpa using e2
  simp only [parseLDC, chomp_cons_self, Option.bind_eq_bind, Option.some_bind]
  rw [e1]
  simp only [Option.some_bind, chomp_cons_self]
  rw [skipWs_spaces_append, skipWs_not_ws '=' _ (by decide)]
  simp only [chomp_cons_self, Option.some_bind]
  rw [hsk2, e3]
  simp

/-- LDM operand parsing with any amount of whitespace in the two
whitespace slots around the equals sign. -/
theorem parseLDM_ws (k1 k2 : Nat) (dsC dsB : List Char)
    (h1 : dsC ≠ []) (h2 : dsB ≠ [])
    (hd1 : ∀ c ∈ dsC, c.isDigit = true) (hd2 : ∀ c ∈ dsB, c.isDigit = true) :
    parseLDM ('R' :: '[' :: (dsC ++ ']' :: (spaces k1 ++ '=' ::
        (spaces k2 ++ 'M' :: '[' :: (dsB ++ [']'])))))
      = some (toNatDigits dsC, toNatDigits dsB) := by
  have e1 := digits1_exact dsC
    (']' :: (spaces k1 ++ '=' :: (spaces k2 ++ 'M' :: '[' :: (dsB ++ [']'])))) h1 hd1
    (by intro c hc; injection hc with hc; rw [← hc]; rfl)
  have e2 := digits1_exact dsB [']'] h2 hd2
    (by intro c hc; injection hc with hc; rw [← hc]; rfl)
  simp only [parseLDM, chomp_cons_self, Option.bind_eq_bind, Option.some_bind]
  rw [e1]
  simp only [Option.some_bind, chomp_cons_self]
  rw [skipWs_spaces_append, skipWs_not_ws '=' _ (by decide)]
  simp only [chomp_cons_self, Option.some_bind]
  rw [skipWs_spaces_append, skipWs_not_ws 'M' _ (by decide)]
  simp only [chomp_cons_self, Option.some_bind]
  rw [e2]
  simp only [Option.some_bind, chomp_cons_self]
  simp

/-- STM operand parsing with any amount of whitespace in the two
whitespace slots around the equals sign. -/
theorem parseSTM_ws (k1 k2 : Nat) (dsB dsC : List Char)
    (h1 : dsB ≠ []) (h2 : dsC ≠ [])
    (hd1 : ∀ c ∈ dsB, c.isDigit = true) (hd2 : ∀ c ∈ dsC, c.isDigit = true) :
    parseSTM ('M' :: '[' :: 'R' :: '[' :: (dsB ++ ']' :: ']' ::
        (spaces k1 ++ '=' :: (spaces k2 ++ 'R' :: '[' :: (dsC ++ [']'])))))
      = some (toNatDigits dsB, toNatDigits dsC) := by
  have e1 := digits1_exact dsB
    (']' :: ']' :: (spaces k1 ++ '=' :: (spaces k2 ++ 'R' :: '[' :: (dsC ++ [']'])))) h1 hd1
    (by intro c hc; injection hc with hc; rw [← hc]; rfl)
  have e2 := digits1_exact dsC [']'] h2 hd2
    (by intro c hc; injection hc with hc; rw [← hc]; rfl)
  simp only [parseSTM, chomp_cons_self, Option.bind_eq_bind, Option.some_bind]
  rw [e1]
  simp only [Option.some_bind, chomp_cons_self]
  rw [skipWs_spaces_append, skipWs_not_ws '=' _ (by decide)]
  simp only [chomp_cons_self, Option.some_bind]
  rw [skipWs_spaces_append, skipWs_not_ws 'R' _ (by decide)]
  simp only [chomp_cons_self, Option.some_bind]
  rw [e2]
  simp only [Option.some_bind, chomp_cons_self]
  simp

/-- BIN_OP operand parsing with any amount of whitespace in the two
whitespace slots after the commas. -/
theorem parseBINOP_ws (k1 k2 : Nat) (dsD dsB dsC : List Char)
    (h1 : dsD ≠ []) (h2 : dsB ≠ []) (h3 : dsC ≠ [])
    (hd1 : ∀ c ∈ dsD, c.isDigit = true) (hd2 : ∀ c ∈ dsB, c.isDigit = true)
    (hd3 : ∀ c ∈ dsC, c.isDigit = true) :
    parseBINOP ('R' :: '[' :: (dsD ++ ']' :: ',' :: (spaces k1 ++
        'R' :: '[' :: (dsB ++ ']' :: ',' :: (spaces k2 ++ dsC)))))
      = some (toNatDigits dsD, toNatDigits dsB, toNatDigits dsC) := by
  have e1 := digits1_exact dsD
    (']' :: ',' :: (spaces k1 ++ 'R' :: '[' :: (dsB ++ ']' :: ',' :: (spaces k2 ++ dsC))))
    h1 hd1 (by intro c hc; injection hc with hc; rw [← hc]; rfl)
  have e2 := digits1_exact dsB (']' :: ',' :: (spaces k2 ++ dsC)) h2 hd2
    (by intro c hc; injection hc with hc; rw [← hc]; rfl)
  have e3 := digits1_exact dsC [] h3 hd3 (by intro c hc; simp at hc)
  obtain ⟨c3, t3, hds3⟩ : ∃ c t, dsC = c :: t := by
    cases dsC
    · exact absurd rfl h3
    · exact ⟨_, _, rfl⟩
  have hsk2 : skipWs (spaces k2 ++ dsC) = dsC := by
    rw [skipWs_spaces_append, hds3,
      skipWs_not_ws _ _ (not_ws_of_digit c3 (hd3 c3 (by rw [hds3]; simp)))]
  have e4 : digits1 dsC = some (toNatDigits dsC, []) := by
    simpa using e3
  simp only [parseBINOP, chomp_cons_self, Option.bind_eq_bind, Option.some_bind]
  rw [e1]
  simp only [Option.some_bind, chomp_cons_self]
  rw [skipWs_spaces_append, skipWs_not_ws 'R' _ (by decide)]
  simp only [chomp_cons_self, Option.some_bind]
  rw [e2]
  simp only [Option.some_bind, chomp_cons_self]
  rw [hsk2, e4]
  simp

end Assembler

namespace Assembler

/-- C8 counterexample: whitespace between tokens inside the brackets, or
before a comma, changes acceptance.  The same instruction with a space
inserted around the register number, or before a comma, stops parsing. -/
theorem c8_cex_bracket_space :
    parse_line ("LDC R[5] = 3".toList) 1 = .ok (some ⟨.LDC, 5, 3, 0⟩)
    ∧ parse_line ("LDC R[ 5 ] = 3".toList) 1 = .error (.syntaxError 1 .LDC)
    ∧ parse_line ("BIN_OP R[6], R[85], 310".toList) 1 = .ok (some ⟨.BIN_OP, 85, 310, 6⟩)
    ∧ parse_line ("BIN_OP R[6] , R[85], 310".toList) 1 = .error (.syntaxError 1 .BIN_OP) :=
  ⟨rfl, rfl, rfl, rfl⟩

/-- C8 as amended: whitespace is insignificant exactly in the whitespace
slots of each grammar, namely around the equals sign of LDC, LDM and STM
and after the two commas of BIN_OP; there, inserting or removing any
number of spaces changes neither acceptance nor the captured field
values. -/
theorem c8_whitespace_slots :
    (∀ (k1 k2 : Nat) (ds1 ds2 : List Char), ds1 ≠ [] → ds2 ≠ [] →
      (∀ c ∈ ds1, c.isDigit = true) → (∀ c ∈ ds2, c.isDigit = true) →
      parseLDC ('R' :: '[' :: (ds1 ++ ']' :: (spaces k1 ++ '=' :: (spaces k2 ++ ds2))))
        = some (toNatDigits ds1, toNatDigits ds2))
    ∧ (∀ (k1 k2 : Nat) (dsC dsB : List Char), dsC ≠ [] → dsB ≠ [] →
      (∀ c ∈ dsC, c.isDigit = true) → (∀ c ∈ dsB, c.isDigit = true) →
      parseLDM ('R' :: '[' :: (dsC ++ ']' :: (spaces k1 ++ '=' ::
          (spaces k2 ++ 'M' :: '[' :: (dsB ++ [']'])))))
        = some (toNatDigits dsC, toNatDigits dsB))
    ∧ (∀ (k1 k2 : Nat) (dsB dsC : List Char), dsB ≠ [] → dsC ≠ [] →
      (∀ c ∈ dsB, c.isDigit = true) → (∀ c ∈ dsC, c.isDigit = true) →
      parseSTM ('M' :: '[' :: 'R' :: '[' :: (dsB ++ ']' :: ']' ::
          (spaces k1 ++ '=' :: (spaces k2 ++ 'R' :: '[' :: (dsC ++ [']'])))))
        = some (toNatDigits dsB, toNatDigits dsC))
    ∧ (∀ (k1 k2 : Nat) (dsD dsB dsC : List Char), dsD ≠ [] → dsB ≠ [] → dsC ≠ [] →
      (∀ c ∈ dsD, c.isDigit = true) → (∀ c ∈ dsB, c.isDigit = true) →
      (∀ c ∈ dsC, c.isDigit = true) →
      parseBINOP ('R' :: '[' :: (dsD ++ ']' :: ',' :: (spaces k1 ++
          'R' :: '[' :: (dsB ++ ']' :: ',' :: (spaces k2 ++ dsC)))))
        = some (toNatDigits dsD, toNatDigits dsB, toNatDigits dsC)) :=
  ⟨parseLDC_ws, parseLDM_ws, parseSTM_ws, parseBINOP_ws⟩

/-- Witness for the amended C8: three spaces before the equals sign and
none after it leave the LDC operand accepted with the same captures. -/
theorem c8_witness :
    parseLDC ("R[91]   =651".toList) = some (91, 651) :=
  c8_whitespace_slots.1 3 0 ['9', '1'] ['6', '5', '1']
    (by decide) (by decide) (by decide) (by decide)

end Assembler
